import Mathlib

/-!
Verification of the SpectraTray spectral level engine (`app.py`).

The development shallowly embeds the engine's components:
* `clamp`, `pyRound` — the numeric helpers (`clamp`, Python's banker `round`);
* `peakStep`, `peakIter`, `normStep` — the per-band peak tracker and
  normalizer of `TraySpectrumMeter._worker` (lines 672-685), over `ℚ`
  (the float arithmetic there is pure field arithmetic and comparisons);
* `detectStep` — the change detector (lines 687-710);
* `toDb`, `bandStatCode`, `bandDbOf` — the per-band statistic of a frame
  (lines 628-655), over `ℝ`;
* `denoise`, `applyDenoise` — the spectral-subtraction denoiser (658-669);
* `learnFrames`, `p90Row`, `median`, `learnNoise` — the noise-profile
  learner (lines 600-625);
* `rfftFreq`, `logEdge`, `bandIdx`, `bandPair`, `build_band_bins` — the
  band-plan builder (`build_band_bins`, lines 176-206).
-/

namespace SpectraTray

/-- `clamp(x, a, b)` from `app.py` line 70-72:
`a if x < a else (b if x > b else x)`. -/
def clamp {α : Type} [LinearOrder α] (x a b : α) : α :=
  if x < a then a else if b < x then b else x

/-- Python's built-in `round` to an integer (round half to even), used at
`lv = int(round(t * max_level))` (line 684). -/
def pyRound (x : ℚ) : ℤ :=
  if x - ⌊x⌋ < 1/2 then ⌊x⌋
  else if 1/2 < x - ⌊x⌋ then ⌊x⌋ + 1
  else if ⌊x⌋ % 2 = 0 then ⌊x⌋ else ⌊x⌋ + 1

/-- One peak-tracker update (line 673):
`band_peak_db[i] = max(band_db, band_peak_db[i] - self.peak_decay_db)`
with `peak_decay_db = 0.06`. -/
def peakStep (peak b : ℚ) : ℚ := max b (peak - 0.06)

/-- The peak tracker iterated on a constant per-frame input `b`. -/
def peakIter (p b : ℚ) : ℕ → ℚ
  | 0 => p
  | k + 1 => peakStep (peakIter p b k) b

/-- One per-band frame step of the peak tracker plus normalizer
(lines 672-685): update the peak, normalize `b` against the window
`[peak - db_range, peak]`, quantize to `0..max_level`.
Returns `(new peak, level)`. -/
def normStep (dbRange : ℚ) (maxLevel : ℕ) (peak b : ℚ) : ℚ × ℤ :=
  let peakNew := max b (peak - 0.06)
  let floorDb := peakNew - dbRange
  let t := clamp ((b - floorDb) / dbRange) 0 1
  let lv := pyRound (t * (maxLevel : ℚ))
  (peakNew, clamp lv 0 (maxLevel : ℤ))

/-- What the change detector compares: the level vector plus the
configuration snapshot `{db_range, bg_mode, stat_mode}` (lines 696-699). -/
abbrev RenderKey := List ℤ × ℚ × String × String

/-- Change-detector state: the last values actually delivered (`None`
initially and right after a forced redraw) and the force-redraw flag. -/
structure DetState where
  last : Option RenderKey
  force : Bool

/-- One iteration of the delivery decision (lines 687-710): a set
force-redraw flag wipes the remembered values and is cleared; the frame
is delivered iff the key differs from the remembered one, and delivery
records the key. Returns `(delivered, new state)`. -/
def detectStep (st : DetState) (k : RenderKey) : Bool × DetState :=
  let st1 : DetState := if st.force then ⟨none, false⟩ else st
  if st1.last = some k then (false, st1) else (true, ⟨some k, st1.force⟩)

/-- Number of calibration frames (line 602):
`learn_frames = max(12, int(3 * sr / nfft))` — `int` truncates. -/
def learnFrames (sr nfft : ℕ) : ℕ := max 12 (3 * sr / nfft)

/-- Magnitude to dB (lines 612 and 628): `20.0 * np.log10(mag + 1e-8)`. -/
noncomputable def toDb (m : ℝ) : ℝ := 20 * Real.logb 10 (m + 1e-8)

/-- The slice `xs[a:b]` of a spectrum list. -/
def sliceOf (xs : List ℝ) (a b : ℕ) : List ℝ := (xs.drop a).take (b - a)

/-- `np.max` over a list (only used on non-empty slices, line 646). -/
noncomputable def listMax : List ℝ → ℝ
  | [] => 0
  | x :: xs => xs.foldl max x

/-- The value `np.percentile(s, 90)` reads off a *sorted* list `s`:
linear interpolation at fractional rank `0.9 * (n - 1)`. -/
noncomputable def interpP90 (s : List ℝ) : ℝ :=
  let pos : ℚ := 9 * ((s.length : ℚ) - 1) / 10
  let i : ℕ := (⌊pos⌋).toNat
  let g : ℚ := pos - ⌊pos⌋
  s.getD i 0 + (g : ℝ) * (s.getD (min (i + 1) (s.length - 1)) 0 - s.getD i 0)

/-- `np.percentile(xs, 90)` (lines 619 and 649): sort, then interpolate
linearly at rank `0.9 * (n - 1)`. -/
noncomputable def percentile90 (xs : List ℝ) : ℝ :=
  interpP90 (List.insertionSort (· ≤ ·) xs)

/-- The `rms` statistic (lines 652-653): per-bin dB to linear amplitude,
root mean square in the amplitude domain, back to dB:
`20 * log10(sqrt(mean(amp * amp)) + 1e-12)` with `amp = 10 ** (seg / 20)`. -/
noncomputable def rmsDb (seg : List ℝ) : ℝ :=
  20 * Real.logb 10
    (Real.sqrt
      ((seg.map (fun s => (10 : ℝ) ^ (s / 20) * (10 : ℝ) ^ (s / 20))).sum
        / (seg.length : ℝ)) + 1e-12)

/-- The string-dispatched band statistic (lines 644-655): `max`, `p90`,
`rms`, otherwise `raise ValueError(f"Unknown stat mode: {stat_mode}")`. -/
noncomputable def bandStatCode (mode : String) (seg : List ℝ) : Except String ℝ :=
  if mode = "max" then .ok (listMax seg)
  else if mode = "p90" then .ok (percentile90 seg)
  else if mode = "rms" then .ok (rmsDb seg)
  else .error ("Unknown stat mode: " ++ mode)

/-- Raw band dB of one band of a frame (lines 638-655): an empty bin
range `(a, b)` with `b <= a` yields the silence constant `-120.0`,
otherwise the configured statistic over the dB slice `mag_db[a:b]`. -/
noncomputable def bandDbOf (mode : String) (magDb : List ℝ) (ab : ℕ × ℕ) :
    Except String ℝ :=
  if ab.2 ≤ ab.1 then .ok (-120) else bandStatCode mode (sliceOf magDb ab.1 ab.2)

/-- The denoise arithmetic for one band (lines 662-669): power-domain
subtraction `Pclean = max(P - alpha*N, 1e-12)` followed by the noise
gate `band_db < nb[i] + gate_margin -> -120`. -/
noncomputable def denoise (alpha margin nb b : ℝ) : ℝ :=
  let P := (10 : ℝ) ^ (b / 10)
  let N := (10 : ℝ) ^ (nb / 10)
  let Pclean := max (P - alpha * N) 1e-12
  let r := 10 * Real.logb 10 Pclean
  if r < nb + margin then -120 else r

/-- The denoise step as guarded in the worker (lines 658-661): it runs
only when denoising is enabled *and* a learned profile exists; otherwise
the band dB passes through unchanged. -/
noncomputable def applyDenoise (enabled : Bool) (profile : Option (List ℝ))
    (alpha margin : ℝ) (i : ℕ) (b : ℝ) : ℝ :=
  match enabled, profile with
  | true, some nb => denoise alpha margin (nb.getD i 0) b
  | _, _ => b

/-- Modelled from the spec (§4.4 Denoiser), word for word: for band dB `b`
and noise estimate `n`, `P = 10^(b/10)`, `N = 10^(n/10)`,
`Pclean = max(P - strength*N, 1e-12)`, `result = 10*log10(Pclean)`;
then the gate: a result below `n + gateMarginDb` is forced to the
silence constant `-120`. Used to compare the source's `denoise` against
the specified behaviour. -/
noncomputable def denoiseSpec (strength gateMarginDb n b : ℝ) : ℝ :=
  let result :=
    10 * Real.logb 10 (max ((10 : ℝ) ^ (b / 10) - strength * (10 : ℝ) ^ (n / 10)) 1e-12)
  if result < n + gateMarginDb then -120 else result

/-- One captured calibration frame (lines 613-620): per band, `-120` for
an empty bin range, else the 90th percentile of the dB slice — always
p90, independent of the configured statistic mode. -/
noncomputable def p90Row (bins : List (ℕ × ℕ)) (magDb : List ℝ) : List ℝ :=
  bins.map (fun ab => if ab.2 ≤ ab.1 then -120 else percentile90 (sliceOf magDb ab.1 ab.2))

/-- `np.median` of a list: middle of the sorted list, or the mean of the
two middles for even length. -/
noncomputable def median (xs : List ℝ) : ℝ :=
  let s := List.insertionSort (· ≤ ·) xs
  if s.length % 2 = 1 then s.getD (s.length / 2) 0
  else (s.getD (s.length / 2 - 1) 0 + s.getD (s.length / 2) 0) / 2

/-- The rows collected in `buf` (lines 603-620): each read either yields
no data (`None`, skipped) or a magnitude spectrum, converted to dB and
reduced to a per-band p90 row. -/
noncomputable def capturedRows (bins : List (ℕ × ℕ))
    (reads : List (Option (List ℝ))) : List (List ℝ) :=
  reads.filterMap (fun r => r.map (fun mag2 => p90Row bins (mag2.map toDb)))

/-- The published noise profile (lines 621-625): nothing if no frame was
captured (`if buf:`), otherwise the per-band median over the captured
rows (`np.median(np.array(buf), axis=0)`). -/
noncomputable def learnNoise (bins : List (ℕ × ℕ))
    (reads : List (Option (List ℝ))) : Option (List ℝ) :=
  let buf := capturedRows bins reads
  if buf = [] then none
  else some ((List.range bins.length).map (fun j => median (buf.map (fun row => row.getD j 0))))

/-- `np.fft.rfftfreq(nfft, d=1/sr)[k] = k * sr / nfft` (line 189). -/
noncomputable def rfftFreq (sr nfft k : ℕ) : ℝ := (k : ℝ) * (sr : ℝ) / (nfft : ℝ)

/-- `np.logspace(log10(fmin), log10(fmax), n_bands + 1)[i]` (line 192):
`10 ** (log10 fmin + i * (log10 fmax - log10 fmin) / n_bands)`. -/
noncomputable def logEdge (fmin fmax : ℝ) (nBands i : ℕ) : ℝ :=
  (10 : ℝ) ^ (Real.logb 10 fmin + (i : ℝ) * (Real.logb 10 fmax - Real.logb 10 fmin) / (nBands : ℝ))

/-- The spec's edge formula (§4.1):
`edge[i] = minFrequency * (maxFrequency / minFrequency) ^ (i / bandCount)`. -/
noncomputable def specEdge (fmin fmax : ℝ) (nBands i : ℕ) : ℝ :=
  fmin * (fmax / fmin) ^ ((i : ℝ) / (nBands : ℝ))

/-- `np.where((freqs >= lo) & (freqs < hi))[0]` (line 199): the rfft
indices `0..nfft/2` whose frequency lies in `[lo, hi)`. -/
noncomputable def bandIdx (sr nfft : ℕ) (lo hi : ℝ) : Finset ℕ :=
  (Finset.range (nfft / 2 + 1)).filter
    (fun k => lo ≤ rfftFreq sr nfft k ∧ rfftFreq sr nfft k < hi)

/-- Lines 199-205: an empty index set yields the sentinel `(0, 0)`;
otherwise the half-open slice `(idx[0], idx[-1] + 1)`. -/
noncomputable def bandPair (sr nfft : ℕ) (lo hi : ℝ) : ℕ × ℕ :=
  if h : (bandIdx sr nfft lo hi).Nonempty
  then ((bandIdx sr nfft lo hi).min' h, (bandIdx sr nfft lo hi).max' h + 1)
  else (0, 0)

/-- `build_band_bins(sr, nfft, n_bands, fmin, fmax)` (lines 176-206). -/
noncomputable def build_band_bins (sr nfft nBands : ℕ) (fmin fmax : ℝ) :
    List (ℕ × ℕ) :=
  (List.range nBands).map
    (fun i => bandPair sr nfft (logEdge fmin fmax nBands i) (logEdge fmin fmax nBands (i + 1)))

/-! ### Helper lemmas -/

theorem clamp_eq_min_max {α : Type} [LinearOrder α] (x : α) {a b : α} (hab : a ≤ b) :
    clamp x a b = min b (max a x) := by
  unfold clamp
  rcases lt_or_le x a with h | h
  · rw [if_pos h, max_eq_left h.le, min_eq_right hab]
  · rw [if_neg (not_lt.2 h), max_eq_right h]
    rcases lt_or_le b x with h2 | h2
    · rw [if_pos h2, min_eq_left h2.le]
    · rw [if_neg (not_lt.2 h2), min_eq_right h2]

theorem clamp_mono {α : Type} [LinearOrder α] {x y a b : α} (hab : a ≤ b) (h : x ≤ y) :
    clamp x a b ≤ clamp y a b := by
  rw [clamp_eq_min_max x hab, clamp_eq_min_max y hab]
  exact min_le_min le_rfl (max_le_max le_rfl h)

theorem clamp_mem {α : Type} [LinearOrder α] (x : α) {a b : α} (hab : a ≤ b) :
    a ≤ clamp x a b ∧ clamp x a b ≤ b := by
  rw [clamp_eq_min_max x hab]
  exact ⟨le_min hab (le_max_left a x), min_le_left _ _⟩

theorem clamp_eq_bot {α : Type} [LinearOrder α] {x a b : α} (hab : a ≤ b) (hx : x ≤ a) :
    clamp x a b = a := by
  rw [clamp_eq_min_max x hab, max_eq_left hx, min_eq_right hab]

theorem clamp_self {α : Type} [LinearOrder α] {x a b : α} (ha : a ≤ x) (hb : x ≤ b) :
    clamp x a b = x := by
  rw [clamp_eq_min_max x (ha.trans hb), max_eq_right ha, min_eq_right hb]

theorem pyRound_le_floor_add_one (x : ℚ) : pyRound x ≤ ⌊x⌋ + 1 := by
  unfold pyRound; split_ifs <;> omega

theorem floor_le_pyRound (x : ℚ) : ⌊x⌋ ≤ pyRound x := by
  unfold pyRound; split_ifs <;> omega

theorem pyRound_intCast (n : ℤ) : pyRound (n : ℚ) = n := by
  unfold pyRound
  rw [Int.floor_intCast]
  norm_num

theorem pyRound_natCast (M : ℕ) : pyRound (M : ℚ) = (M : ℤ) := by
  have h := pyRound_intCast (M : ℤ)
  rwa [Int.cast_natCast] at h

theorem pyRound_mono {x y : ℚ} (h : x ≤ y) : pyRound x ≤ pyRound y := by
  rcases lt_or_le ⌊x⌋ ⌊y⌋ with hf | hf
  · calc pyRound x ≤ ⌊x⌋ + 1 := pyRound_le_floor_add_one x
      _ ≤ ⌊y⌋ := by omega
      _ ≤ pyRound y := floor_le_pyRound y
  · have hf2 : ⌊x⌋ = ⌊y⌋ := le_antisymm (Int.floor_le_floor h) hf
    have hr : x - (⌊y⌋ : ℚ) ≤ y - (⌊y⌋ : ℚ) := by linarith
    unfold pyRound
    rw [hf2]
    split_ifs <;> first | omega | (exfalso; linarith)

theorem listMax_spec (x : ℝ) (xs : List ℝ) :
    (xs.foldl max x = x ∨ xs.foldl max x ∈ xs) ∧
      x ≤ xs.foldl max x ∧ ∀ y ∈ xs, y ≤ xs.foldl max x := by
  induction xs generalizing x with
  | nil => simp
  | cons a l ih =>
    simp only [List.foldl_cons, List.mem_cons]
    obtain ⟨hmem, hle, hall⟩ := ih (max x a)
    refine ⟨?_, le_trans (le_max_left x a) hle, ?_⟩
    · rcases hmem with hc | hc
      · rcases max_cases x a with ⟨he, _⟩ | ⟨he, _⟩
        · exact Or.inl (by rw [hc, he])
        · exact Or.inr (Or.inl (by rw [hc, he]))
      · exact Or.inr (Or.inr hc)
    · intro y hy
      rcases hy with rfl | hy
      · exact le_trans (le_max_right x y) hle
      · exact hall y hy

/-! ### C1, C9, C10 — peak tracker and normalizer -/

/-- C1: each frame the per-band peak becomes `max(b, peak - 0.06)`, the
emitted level is `round(clamp((b - (peak - dbRange))/dbRange, 0, 1) * maxLevel)`
clamped to `[0, maxLevel]`; `b` equal to the updated peak gives the full
level, `b` at or below `peak - dbRange` gives level 0, and the level is
monotone in `b`. -/
theorem C1_peak_update_and_normalization (D : ℚ) (M : ℕ) (p b b₁ b₂ : ℚ)
    (hD : 0 < D) (h12 : b₁ ≤ b₂) :
    (normStep D M p b).1 = max b (p - 0.06) ∧
    (normStep D M p b).2 =
      clamp (pyRound (clamp ((b - (max b (p - 0.06) - D)) / D) 0 1 * (M : ℚ))) 0 (M : ℤ) ∧
    (b = (normStep D M p b).1 → (normStep D M p b).2 = (M : ℤ)) ∧
    (b ≤ (normStep D M p b).1 - D → (normStep D M p b).2 = 0) ∧
    (normStep D M p b₁).2 ≤ (normStep D M p b₂).2 := by
  refine ⟨rfl, rfl, ?_, ?_, ?_⟩
  · intro hb
    simp only [normStep] at hb ⊢
    rw [← hb]
    have h1 : (b - (b - D)) / D = 1 := by field_simp
    rw [h1, clamp_self (by norm_num : (0:ℚ) ≤ 1) le_rfl, one_mul, pyRound_natCast]
    exact clamp_self (by positivity) le_rfl
  · intro hb
    simp only [normStep] at hb ⊢
    have hnum : b - (max b (p - 0.06) - D) ≤ 0 := by linarith
    have h1 : (b - (max b (p - 0.06) - D)) / D ≤ 0 := by
      calc (b - (max b (p - 0.06) - D)) / D ≤ 0 / D := by gcongr
        _ = 0 := zero_div D
    rw [clamp_eq_bot (by norm_num) h1, zero_mul,
      (by exact_mod_cast pyRound_intCast 0 : pyRound 0 = 0)]
    exact clamp_self le_rfl (by positivity)
  · simp only [normStep]
    apply clamp_mono (by positivity)
    apply pyRound_mono
    apply mul_le_mul_of_nonneg_right _ (by positivity)
    apply clamp_mono (by norm_num)
    have hnum : b₁ - (max b₁ (p - 0.06) - D) ≤ b₂ - (max b₂ (p - 0.06) - D) := by
      rcases max_cases b₁ (p - 0.06) with ⟨h1, _⟩ | ⟨h1, _⟩ <;>
        rcases max_cases b₂ (p - 0.06) with ⟨h2, _⟩ | ⟨h2, _⟩ <;>
          rw [h1, h2] <;> linarith
    exact (div_le_div_iff_of_pos_right hD).2 hnum

theorem C1_witness : (normStep 60 10 (-10) (-10)).2 = (10 : ℤ) :=
  (C1_peak_update_and_normalization 60 10 (-10) (-10) (-70) (-40)
    (by norm_num) (by norm_num)).2.2.1
    (by simp only [normStep]; rw [max_eq_left (by norm_num)])

/-- Closed form of the peak tracker under a constant input. -/
theorem peakIter_closed (p b : ℚ) : ∀ k, 1 ≤ k → peakIter p b k = max b (p - 0.06 * k) := by
  intro k hk
  induction k, hk using Nat.le_induction with
  | base =>
    show peakStep (peakIter p b 0) b = _
    simp only [peakIter, peakStep]
    norm_num
  | succ n hn ih =>
    show peakStep (peakIter p b n) b = _
    rw [ih, peakStep,
      show max b (p - 0.06 * n) - 0.06 = max (b - 0.06) (p - 0.06 * n - 0.06) from
        (max_sub_sub_right _ _ _).symm,
      ← max_assoc, max_eq_left (show b - 0.06 ≤ b by linarith)]
    congr 1
    push_cast
    ring

/-- C9 fails as stated: from peak 0, the constant input `-30` leaves the
peak at `-0.06` after one frame, not at `-30`. -/
theorem C9_counterexample : peakIter 0 (-30) 1 ≠ -30 ∧ peakIter 0 (-30) 1 = -0.06 := by
  have h : peakIter 0 (-30) 1 = (-0.06 : ℚ) := by
    show peakStep (peakIter 0 (-30) 0) (-30) = _
    simp only [peakIter, peakStep]
    norm_num [max_def]
  exact ⟨by rw [h]; norm_num, h⟩

/-- C9 (amended): a constant input `b` pins the peak at `b` within one
frame, and keeps it there, **when `b` is at least the once-decayed prior
peak** (`p - 0.06 ≤ b`, instant attack); in general the peak converges to
`b` only after finitely many frames of linear decay. -/
theorem C9_peak_convergence (p b : ℚ) (h : p - 0.06 ≤ b) :
    (∀ k, 1 ≤ k → peakIter p b k = b) ∧
    (∀ q c : ℚ, ∃ K : ℕ, ∀ m, K ≤ m → peakIter q c m = c) := by
  constructor
  · intro k hk
    rw [peakIter_closed p b k hk]
    apply max_eq_left
    have hk1 : (1 : ℚ) ≤ (k : ℚ) := by exact_mod_cast hk
    nlinarith
  · intro q c
    obtain ⟨K0, hK0⟩ := exists_nat_ge ((q - c) / 0.06)
    refine ⟨K0 + 1, fun m hm => ?_⟩
    rw [peakIter_closed q c m (by omega)]
    apply max_eq_left
    have h1 : q - c ≤ 0.06 * K0 := by
      rw [div_le_iff₀ (by norm_num : (0:ℚ) < 0.06)] at hK0
      linarith
    have h2 : (K0 : ℚ) ≤ (m : ℚ) := by exact_mod_cast (by omega : K0 ≤ m)
    nlinarith

theorem C9_witness : peakIter 0 5 1 = 5 :=
  (C9_peak_convergence 0 5 (by norm_num)).1 1 le_rfl

/-- C10: after the update the stored peak is at least the frame's `b`,
the pre-clamp normalized value never exceeds 1, and the appended level is
an integer within `[0, maxLevel]`, for any positive dynamic range. -/
theorem C10_level_bounds (D : ℚ) (M : ℕ) (p b : ℚ) (hD : 0 < D) :
    b ≤ (normStep D M p b).1 ∧
    (b - ((normStep D M p b).1 - D)) / D ≤ 1 ∧
    0 ≤ (normStep D M p b).2 ∧ (normStep D M p b).2 ≤ (M : ℤ) := by
  have hpk : b ≤ max b (p - 0.06) := le_max_left _ _
  refine ⟨hpk, ?_, ?_, ?_⟩
  · simp only [normStep]
    rw [div_le_one hD]
    linarith
  · simp only [normStep]
    exact (clamp_mem _ (by positivity)).1
  · simp only [normStep]
    exact (clamp_mem _ (by positivity)).2

theorem C10_witness :
    0 ≤ (normStep 60 10 0 5).2 ∧ (normStep 60 10 0 5).2 ≤ (10 : ℤ) :=
  ⟨(C10_level_bounds 60 10 0 5 (by norm_num)).2.2.1,
   (C10_level_bounds 60 10 0 5 (by norm_num)).2.2.2⟩

/-! ### C6 — change detector -/

/-- C6: the frame is delivered iff the key (levels plus configuration)
differs from the last delivered one or the force flag is set; the flag is
cleared by the step; a delivery records the key, a suppression leaves the
state untouched; and the immediately repeated key is always suppressed. -/
theorem C6_change_detector (st : DetState) (k : RenderKey) :
    ((detectStep st k).1 = true ↔ (st.force = true ∨ st.last ≠ some k)) ∧
    (detectStep st k).2.force = false ∧
    ((detectStep st k).1 = true → (detectStep st k).2.last = some k) ∧
    ((detectStep st k).1 = false → (detectStep st k).2 = st) ∧
    (detectStep (detectStep st k).2 k).1 = false := by
  obtain ⟨last, force⟩ := st
  cases force <;> by_cases hl : last = some k <;>
    simp_all [detectStep]

theorem C6_witness :
    (detectStep (detectStep ⟨none, true⟩ ([], 60, "black", "rms")).2
      ([], 60, "black", "rms")).1 = false :=
  (C6_change_detector ⟨none, true⟩ ([], 60, "black", "rms")).2.2.2.2

/-! ### C2 — per-band statistic of a frame -/

theorem sliceOf_ne_nil {xs : List ℝ} {a b : ℕ} (hab : a < b) (hb : b ≤ xs.length) :
    sliceOf xs a b ≠ [] := by
  have hlen : (sliceOf xs a b).length = min (b - a) (xs.length - a) := by
    simp [sliceOf]
  intro hnil
  rw [hnil] at hlen
  simp at hlen
  omega

/-- C2: on a frame's dB array (bin dB being `20*log10(mag + 1e-8)`),
an empty band yields `-120`; a non-empty band yields, for `max`, the
maximum dB of the slice, for `p90`, the linearly interpolated
90th-percentile of the sorted slice, and for `rms`, the dB of the
root-mean-square of the per-bin linear amplitudes `10^(dB/20)` (computed
in the amplitude domain, with the code's `1e-12` log guard). -/
theorem C2_band_statistic (magDb : List ℝ) (a b : ℕ) (s : List ℝ)
    (hab : a < b) (hb : b ≤ magDb.length)
    (hsort : s.Sorted (· ≤ ·)) (hperm : s.Perm (sliceOf magDb a b)) :
    (∀ m : ℝ, toDb m = 20 * Real.logb 10 (m + 1e-8)) ∧
    (∀ mode : String, ∀ p : ℕ × ℕ, p.2 ≤ p.1 → bandDbOf mode magDb p = .ok (-120)) ∧
    (∃ v, bandDbOf "max" magDb (a, b) = .ok v ∧ v ∈ sliceOf magDb a b ∧
      ∀ x ∈ sliceOf magDb a b, x ≤ v) ∧
    bandDbOf "p90" magDb (a, b) = .ok (interpP90 s) ∧
    bandDbOf "rms" magDb (a, b) =
      .ok (20 * Real.logb 10 (Real.sqrt
        (((sliceOf magDb a b).map (fun x => ((10 : ℝ) ^ (x / 20)) ^ 2)).sum
          / ((sliceOf magDb a b).length : ℝ)) + 1e-12)) := by
  have hne : ¬((a, b).2 ≤ (a, b).1) := not_le.2 hab
  have hslice : sliceOf magDb a b ≠ [] := sliceOf_ne_nil hab hb
  refine ⟨fun m => rfl, fun mode p hp => ?_, ?_, ?_, ?_⟩
  · simp [bandDbOf, hp]
  · obtain ⟨y, ys, hys⟩ := List.exists_cons_of_ne_nil hslice
    obtain ⟨hmem, hhead, hall⟩ := listMax_spec y ys
    refine ⟨listMax (sliceOf magDb a b), ?_, ?_, ?_⟩
    · simp [bandDbOf, hne, bandStatCode]
    · rw [hys, listMax]
      rcases hmem with hc | hc
      · rw [hc]; exact List.mem_cons_self y ys
      · exact List.mem_cons_of_mem y hc
    · intro x hx
      rw [hys] at hx ⊢
      rw [listMax]
      rcases List.mem_cons.1 hx with rfl | hx2
      · exact hhead
      · exact hall x hx2
  · have hs : List.insertionSort (· ≤ ·) (sliceOf magDb a b) = s :=
      List.eq_of_perm_of_sorted ((List.perm_insertionSort _ _).trans hperm.symm)
        (List.sorted_insertionSort _ _) hsort
    simp [bandDbOf, hne, bandStatCode, percentile90, hs]
  · simp [bandDbOf, hne, bandStatCode, rmsDb, pow_two]

theorem C2_witness :
    bandDbOf "p90" [(-50 : ℝ), -40] (0, 2) = .ok (interpP90 [(-50 : ℝ), -40]) :=
  (C2_band_statistic [(-50 : ℝ), -40] 0 2 [(-50 : ℝ), -40]
    (by norm_num) (by norm_num)
    (by simp [List.sorted_cons]; norm_num)
    (by have : sliceOf [(-50 : ℝ), -40] 0 2 = [(-50 : ℝ), -40] := rfl
        rw [this])).2.2.2.1

/-! ### C3, C8 — denoiser -/

theorem denoise_eval (alpha margin nb b : ℝ) :
    denoise alpha margin nb b =
      if 10 * Real.logb 10 (max ((10 : ℝ) ^ (b / 10) - alpha * (10 : ℝ) ^ (nb / 10)) 1e-12)
          < nb + margin
      then -120
      else 10 * Real.logb 10 (max ((10 : ℝ) ^ (b / 10) - alpha * (10 : ℝ) ^ (nb / 10)) 1e-12) :=
  rfl

/-- C3: with denoising enabled and a learned profile, band `i`'s dB `b`
becomes the spec's power-domain subtraction plus gate
(`denoiseSpec`, written from §4.4); with denoising disabled or no
profile, the value passes through unchanged. -/
theorem C3_denoiser_refines_spec (alpha margin b : ℝ) (i : ℕ) (nb : List ℝ)
    (enabled : Bool) (profile : Option (List ℝ)) :
    applyDenoise true (some nb) alpha margin i b
        = denoiseSpec alpha margin (nb.getD i 0) b ∧
    applyDenoise false profile alpha margin i b = b ∧
    applyDenoise enabled none alpha margin i b = b := by
  refine ⟨rfl, ?_, ?_⟩
  · cases profile <;> rfl
  · cases enabled <;> rfl

theorem one_div_e12 : (1e-12 : ℝ) = (10 : ℝ) ^ ((-12 : ℝ)) := by
  rw [show ((-12 : ℝ)) = ((-12 : ℤ) : ℝ) by norm_num, Real.rpow_intCast]
  norm_num

/-- C8 fails as stated: with strength 0 the gate still fires whenever the
band dB is below the noise estimate; at `b = -60`, `n = -50` the denoiser
returns the silence constant `-120`, not `b`. -/
theorem C8_counterexample :
    applyDenoise true (some [(-50 : ℝ)]) 0 0 0 (-60) = -120 ∧ ((-120 : ℝ) ≠ -60) := by
  constructor
  · show denoise 0 0 (List.getD [(-50 : ℝ)] 0 0) (-60) = -120
    rw [show List.getD [(-50 : ℝ)] 0 0 = -50 from rfl, denoise_eval]
    have hsub : (10 : ℝ) ^ ((-60 : ℝ) / 10) - 0 * (10 : ℝ) ^ ((-50 : ℝ) / 10)
        = (10 : ℝ) ^ ((-6 : ℝ)) := by
      rw [show ((-60 : ℝ) / 10) = ((-6 : ℝ)) by norm_num]
      ring
    rw [hsub]
    have hmax : max ((10 : ℝ) ^ ((-6 : ℝ))) 1e-12 = (10 : ℝ) ^ ((-6 : ℝ)) := by
      apply max_eq_left
      rw [one_div_e12]
      exact (Real.rpow_le_rpow_left_iff (by norm_num)).2 (by norm_num)
    rw [hmax, Real.logb_rpow (by norm_num) (by norm_num)]
    rw [if_pos (by norm_num : (10 : ℝ) * (-6) < -50 + 0)]
  · norm_num

/-- C8 (amended): with strength 0 the denoiser returns `b` unchanged
(exactly, in the real model) provided the gate does not fire
(`n + gateMargin ≤ b`) and `b` is above the `1e-12` power guard
(`-120 ≤ b`). -/
theorem C8_strength_zero_identity (margin b : ℝ) (i : ℕ) (nb : List ℝ)
    (hb : -120 ≤ b) (hg : nb.getD i 0 + margin ≤ b) :
    applyDenoise true (some nb) 0 margin i b = b := by
  show denoise 0 margin (nb.getD i 0) b = b
  rw [denoise_eval,
    show (10 : ℝ) ^ (b / 10) - 0 * (10 : ℝ) ^ (nb.getD i 0 / 10)
        = (10 : ℝ) ^ (b / 10) by ring]
  have hmax : max ((10 : ℝ) ^ (b / 10)) 1e-12 = (10 : ℝ) ^ (b / 10) := by
    apply max_eq_left
    rw [one_div_e12]
    exact (Real.rpow_le_rpow_left_iff (by norm_num)).2 (by linarith)
  rw [hmax, Real.logb_rpow (by norm_num) (by norm_num), mul_comm,
    div_mul_cancel₀ b (by norm_num : (10 : ℝ) ≠ 0)]
  exact if_neg (not_lt.2 hg)

theorem C8_witness : applyDenoise true (some [(-50 : ℝ)]) 0 0 0 (-40) = -40 :=
  C8_strength_zero_identity 0 (-40) 0 [(-50 : ℝ)] (by norm_num) (by norm_num)

/-! ### C5 — noise-profile learner -/

/-- C5 fails as stated: at the engine's own parameters (sr 48000,
nfft 4096) the code attempts `max(12, int(3*48000/4096)) = 35` frames,
while `max(12, ceil(3*48000/4096)) = 36`. -/
theorem C5_counterexample :
    learnFrames 48000 4096 = 35 ∧
    learnFrames 48000 4096 ≠ max 12 ((3 * 48000 + 4096 - 1) / 4096) := by
  constructor <;> decide

/-- C5 (amended): the learner attempts `max(12, floor(3*sr/nfft))` frames
(Python `int` truncation, not ceiling); every captured frame is reduced
to per-band p90 rows regardless of the configured statistic; nothing is
published iff no frame was captured; a published profile is the per-band
median over the captured rows, one entry per band. -/
theorem C5_noise_learning (sr nfft : ℕ) (bins : List (ℕ × ℕ))
    (reads : List (Option (List ℝ))) :
    learnFrames sr nfft = max 12 (3 * sr / nfft) ∧
    (learnNoise bins reads = none ↔ ∀ r ∈ reads, r = none) ∧
    (∀ noise, learnNoise bins reads = some noise →
      noise.length = bins.length ∧
      noise = (List.range bins.length).map
        (fun j => median ((capturedRows bins reads).map (fun row => row.getD j 0)))) ∧
    (∀ mag2 : List ℝ, p90Row bins (mag2.map toDb) =
      bins.map (fun ab => if ab.2 ≤ ab.1 then -120
        else percentile90 (sliceOf (mag2.map toDb) ab.1 ab.2))) := by
  have hchar : capturedRows bins reads = [] ↔ ∀ r ∈ reads, r = none := by
    unfold capturedRows
    rw [List.filterMap_eq_nil_iff]
    constructor
    · intro h r hr
      exact Option.map_eq_none'.1 (h r hr)
    · intro h r hr
      rw [h r hr]
      rfl
  refine ⟨rfl, ?_, ?_, fun mag2 => rfl⟩
  · simp only [learnNoise]
    by_cases hbuf : capturedRows bins reads = []
    · rw [if_pos hbuf]
      simpa using hchar.1 hbuf
    · have hnot : ¬(∀ r ∈ reads, r = none) := fun hc => hbuf (hchar.2 hc)
      simp [hbuf, hnot]
  · intro noise hn
    simp only [learnNoise] at hn
    rw [if_neg (fun hbuf => by simp [hbuf] at hn)] at hn
    have h2 : noise = (List.range bins.length).map
        (fun j => median ((capturedRows bins reads).map (fun row => row.getD j 0))) :=
      (Option.some.inj hn).symm
    exact ⟨by rw [h2]; simp, h2⟩

theorem C5_witness : learnFrames 48000 4096 = max 12 (3 * 48000 / 4096) :=
  (C5_noise_learning 48000 4096 [] []).1

/-! ### C7 — validation behaviour -/

theorem logEdge_self (fmin : ℝ) (hf : 0 < fmin) (n i : ℕ) :
    logEdge fmin fmin n i = fmin := by
  unfold logEdge
  rw [sub_self, mul_zero, zero_div, add_zero]
  exact Real.rpow_logb (by norm_num) (by norm_num) hf

theorem build_band_bins_degenerate (sr nfft n : ℕ) (fmin : ℝ) (hf : 0 < fmin) :
    build_band_bins sr nfft n fmin fmin = List.replicate n (0, 0) := by
  unfold build_band_bins
  have hpair : ∀ i : ℕ,
      bandPair sr nfft (logEdge fmin fmin n i) (logEdge fmin fmin n (i + 1)) = (0, 0) := by
    intro i
    rw [logEdge_self fmin hf, logEdge_self fmin hf]
    unfold bandPair
    rw [dif_neg]
    rintro ⟨k, hk⟩
    rw [bandIdx, Finset.mem_filter] at hk
    exact absurd (hk.2.1.trans_lt hk.2.2) (lt_irrefl _)
  rw [List.eq_replicate_iff]
  refine ⟨by simp, ?_⟩
  intro x hx
  obtain ⟨i, _, rfl⟩ := List.mem_map.1 hx
  exact hpair i

/-- C7 fails as stated: the band-plan builder performs no validation —
with `fmin = fmax` (invalid per the spec) it silently returns all-empty
bands instead of signalling an error — and the unknown-statistic-mode
error arises in per-frame band processing (mid-stream), not at
configuration time. -/
theorem C7_counterexample :
    build_band_bins 48000 4096 8 80 80 = List.replicate 8 (0, 0) ∧
    bandDbOf "median" [(0 : ℝ)] (0, 1) = .error "Unknown stat mode: median" :=
  ⟨build_band_bins_degenerate 48000 4096 8 80 (by norm_num), rfl⟩

/-- C7 (amended): `build_band_bins` does not validate its parameters:
for any `fmin = fmax > 0` it returns normally with every band empty;
an unrecognized statistic mode is not rejected at configuration time but
surfaces as `ValueError` when a frame's non-empty band is processed with
it inside the worker loop. -/
theorem C7_validation (sr nfft n : ℕ) (fmin : ℝ) (hf : 0 < fmin)
    (mode : String) (h1 : mode ≠ "max") (h2 : mode ≠ "p90") (h3 : mode ≠ "rms")
    (seg : List ℝ) :
    build_band_bins sr nfft n fmin fmin = List.replicate n (0, 0) ∧
    bandStatCode mode seg = .error ("Unknown stat mode: " ++ mode) := by
  refine ⟨build_band_bins_degenerate sr nfft n fmin hf, ?_⟩
  simp [bandStatCode, h1, h2, h3]

theorem C7_witness :
    build_band_bins 48000 4096 8 80 80 = List.replicate 8 (0, 0) ∧
    bandStatCode "median" [] = .error ("Unknown stat mode: " ++ "median") :=
  C7_validation 48000 4096 8 80 (by norm_num) "median"
    (by decide) (by decide) (by decide) []

/-! ### C4 — band plan -/

theorem rfftFreq_le (sr nfft : ℕ) (hsr : 0 < sr) (hnfft : 0 < nfft)
    {k1 k2 : ℕ} (h : k1 ≤ k2) : rfftFreq sr nfft k1 ≤ rfftFreq sr nfft k2 := by
  unfold rfftFreq
  have hsr' : (0 : ℝ) ≤ (sr : ℝ) := by positivity
  have hnfft' : (0 : ℝ) < (nfft : ℝ) := by exact_mod_cast hnfft
  have hk : (k1 : ℝ) ≤ (k2 : ℝ) := by exact_mod_cast h
  exact (div_le_div_iff_of_pos_right hnfft').2 (mul_le_mul_of_nonneg_right hk hsr')

theorem rfftFreq_lt_of_lt (sr nfft : ℕ) (hsr : 0 < sr) (hnfft : 0 < nfft)
    {k1 k2 : ℕ} (h : rfftFreq sr nfft k1 < rfftFreq sr nfft k2) : k1 < k2 := by
  by_contra hcon
  push_neg at hcon
  exact absurd h (not_lt.2 (rfftFreq_le sr nfft hsr hnfft hcon))

theorem logEdge_eq_specEdge (fmin fmax : ℝ) (hmin : 0 < fmin) (hmax : 0 < fmax)
    (n i : ℕ) : logEdge fmin fmax n i = specEdge fmin fmax n i := by
  unfold logEdge specEdge
  rw [show Real.logb 10 fmin + (i : ℝ) * (Real.logb 10 fmax - Real.logb 10 fmin) / (n : ℝ)
      = Real.logb 10 fmin + (Real.logb 10 fmax - Real.logb 10 fmin) * ((i : ℝ) / (n : ℝ))
      by ring]
  rw [Real.rpow_add (by norm_num : (0 : ℝ) < 10),
    Real.rpow_logb (by norm_num) (by norm_num) hmin]
  congr 1
  rw [Real.rpow_mul (by norm_num : (0 : ℝ) ≤ 10)]
  congr 1
  rw [Real.rpow_sub (by norm_num : (0 : ℝ) < 10),
    Real.rpow_logb (by norm_num) (by norm_num) hmax,
    Real.rpow_logb (by norm_num) (by norm_num) hmin]

theorem logEdge_lt_logEdge (fmin fmax : ℝ) (hmin : 0 < fmin) (hlt : fmin < fmax)
    (n : ℕ) (hn : 1 ≤ n) {i j : ℕ} (hij : i < j) :
    logEdge fmin fmax n i < logEdge fmin fmax n j := by
  unfold logEdge
  apply (Real.rpow_lt_rpow_left_iff (by norm_num : (1 : ℝ) < 10)).2
  have hlog : Real.logb 10 fmin < Real.logb 10 fmax :=
    Real.logb_lt_logb (by norm_num) hmin hlt
  have hn' : (0 : ℝ) < (n : ℝ) := by exact_mod_cast hn
  have hij' : (i : ℝ) < (j : ℝ) := by exact_mod_cast hij
  have hmul : (i : ℝ) * (Real.logb 10 fmax - Real.logb 10 fmin)
      < (j : ℝ) * (Real.logb 10 fmax - Real.logb 10 fmin) :=
    mul_lt_mul_of_pos_right hij' (by linarith)
  have hdiv := (div_lt_div_iff_of_pos_right hn').2 hmul
  linarith

theorem logEdge_le_logEdge (fmin fmax : ℝ) (hmin : 0 < fmin) (hlt : fmin < fmax)
    (n : ℕ) (hn : 1 ≤ n) {i j : ℕ} (hij : i ≤ j) :
    logEdge fmin fmax n i ≤ logEdge fmin fmax n j := by
  rcases Nat.eq_or_lt_of_le hij with rfl | hij2
  · exact le_rfl
  · exact (logEdge_lt_logEdge fmin fmax hmin hlt n hn hij2).le

theorem build_band_bins_getD (sr nfft nBands : ℕ) (fmin fmax : ℝ) {i : ℕ}
    (hi : i < nBands) :
    (build_band_bins sr nfft nBands fmin fmax).getD i (0, 0)
      = bandPair sr nfft (logEdge fmin fmax nBands i) (logEdge fmin fmax nBands (i + 1)) := by
  unfold build_band_bins
  rw [List.getD_eq_getElem _ _ (by simpa using hi)]
  simp

theorem bandPair_bounds_pred (sr nfft : ℕ) (hsr : 0 < sr) (hnfft : 0 < nfft)
    (lo hi : ℝ) {k : ℕ}
    (h1 : (bandPair sr nfft lo hi).1 ≤ k) (h2 : k < (bandPair sr nfft lo hi).2) :
    lo ≤ rfftFreq sr nfft k ∧ rfftFreq sr nfft k < hi := by
  unfold bandPair at h1 h2
  by_cases h : (bandIdx sr nfft lo hi).Nonempty
  · rw [dif_pos h] at h1 h2
    dsimp only at h1 h2
    have hk2 : k ≤ (bandIdx sr nfft lo hi).max' h := by omega
    have hmin := (bandIdx sr nfft lo hi).min'_mem h
    have hmax := (bandIdx sr nfft lo hi).max'_mem h
    simp only [bandIdx, Finset.mem_filter] at hmin hmax
    constructor
    · exact le_trans hmin.2.1 (rfftFreq_le sr nfft hsr hnfft h1)
    · exact lt_of_le_of_lt (rfftFreq_le sr nfft hsr hnfft hk2) hmax.2.2
  · rw [dif_neg h] at h1 h2
    exact absurd h2 (by omega)

theorem mem_bandPair_iff (sr nfft : ℕ) (hsr : 0 < sr) (hnfft : 0 < nfft)
    (lo hi : ℝ) (k : ℕ) (hk : k ≤ nfft / 2) :
    ((bandPair sr nfft lo hi).1 ≤ k ∧ k < (bandPair sr nfft lo hi).2) ↔
      (lo ≤ rfftFreq sr nfft k ∧ rfftFreq sr nfft k < hi) := by
  constructor
  · rintro ⟨h1, h2⟩
    exact bandPair_bounds_pred sr nfft hsr hnfft lo hi h1 h2
  · rintro ⟨h1, h2⟩
    have hkmem : k ∈ bandIdx sr nfft lo hi := by
      rw [bandIdx, Finset.mem_filter]
      exact ⟨Finset.mem_range.2 (by omega), h1, h2⟩
    have hne : (bandIdx sr nfft lo hi).Nonempty := ⟨k, hkmem⟩
    unfold bandPair
    rw [dif_pos hne]
    exact ⟨Finset.min'_le _ _ hkmem, by have := Finset.le_max' _ _ hkmem; omega⟩

/-- C4: for valid band-plan parameters, band `i`'s bin range contains
exactly the rfft indices whose frequency `k*sr/nfft` lies in
`[edge i, edge (i+1))` with `edge i = fmin*(fmax/fmin)^(i/nBands)`;
indices of distinct bands are strictly ordered (so the ranges are
pairwise non-overlapping and frequency-increasing); and a band with no
such index is the empty sentinel `(0, 0)`. -/
theorem C4_band_plan (sr nfft nBands : ℕ) (fmin fmax : ℝ)
    (hsr : 0 < sr) (hpow : ∃ e : ℕ, nfft = 2 ^ e) (hbands : 1 ≤ nBands)
    (hmin : 0 < fmin) (hlt : fmin < fmax) (_hnyq : fmax ≤ (sr : ℝ) / 2) :
    (∀ i, i < nBands → ∀ k, k ≤ nfft / 2 →
      ((((build_band_bins sr nfft nBands fmin fmax).getD i (0, 0)).1 ≤ k ∧
          k < ((build_band_bins sr nfft nBands fmin fmax).getD i (0, 0)).2) ↔
        (specEdge fmin fmax nBands i ≤ rfftFreq sr nfft k ∧
          rfftFreq sr nfft k < specEdge fmin fmax nBands (i + 1)))) ∧
    (∀ i j, i < j → j < nBands → ∀ ki kj,
      ((build_band_bins sr nfft nBands fmin fmax).getD i (0, 0)).1 ≤ ki →
      ki < ((build_band_bins sr nfft nBands fmin fmax).getD i (0, 0)).2 →
      ((build_band_bins sr nfft nBands fmin fmax).getD j (0, 0)).1 ≤ kj →
      kj < ((build_band_bins sr nfft nBands fmin fmax).getD j (0, 0)).2 →
      ki < kj) ∧
    (∀ i, i < nBands →
      (∀ k, k ≤ nfft / 2 →
        ¬(specEdge fmin fmax nBands i ≤ rfftFreq sr nfft k ∧
          rfftFreq sr nfft k < specEdge fmin fmax nBands (i + 1))) →
      (build_band_bins sr nfft nBands fmin fmax).getD i (0, 0) = (0, 0)) := by
  have hnfft : 0 < nfft := by
    obtain ⟨e, he⟩ := hpow
    rw [he]
    positivity
  have hmax0 : 0 < fmax := hmin.trans hlt
  have hspec : ∀ i, logEdge fmin fmax nBands i = specEdge fmin fmax nBands i :=
    fun i => logEdge_eq_specEdge fmin fmax hmin hmax0 nBands i
  refine ⟨?_, ?_, ?_⟩
  · intro i hi k hk
    rw [build_band_bins_getD sr nfft nBands fmin fmax hi, ← hspec, ← hspec]
    exact mem_bandPair_iff sr nfft hsr hnfft _ _ k hk
  · intro i j hij hj ki kj h1 h2 h3 h4
    rw [build_band_bins_getD sr nfft nBands fmin fmax (lt_trans hij hj)] at h1 h2
    rw [build_band_bins_getD sr nfft nBands fmin fmax hj] at h3 h4
    have hpi := (bandPair_bounds_pred sr nfft hsr hnfft _ _ h1 h2).2
    have hpj := (bandPair_bounds_pred sr nfft hsr hnfft _ _ h3 h4).1
    have hedge : logEdge fmin fmax nBands (i + 1) ≤ logEdge fmin fmax nBands j :=
      logEdge_le_logEdge fmin fmax hmin hlt nBands hbands (by omega)
    exact rfftFreq_lt_of_lt sr nfft hsr hnfft
      (lt_of_lt_of_le hpi (le_trans hedge hpj))
  · intro i hi hall
    rw [build_band_bins_getD sr nfft nBands fmin fmax hi]
    unfold bandPair
    rw [dif_neg]
    rintro ⟨k, hkmem⟩
    rw [bandIdx, Finset.mem_filter, Finset.mem_range] at hkmem
    rw [hspec i, hspec (i + 1)] at hkmem
    exact hall k (by omega) hkmem.2

theorem C4_witness :
    (((build_band_bins 48000 4096 8 80 16000).getD 0 (0, 0)).1 ≤ 7 ∧
        7 < ((build_band_bins 48000 4096 8 80 16000).getD 0 (0, 0)).2) ↔
      (specEdge 80 16000 8 0 ≤ rfftFreq 48000 4096 7 ∧
        rfftFreq 48000 4096 7 < specEdge 80 16000 8 1) :=
  (C4_band_plan 48000 4096 8 80 16000 (by norm_num) ⟨12, by norm_num⟩
    (by norm_num) (by norm_num) (by norm_num) (by norm_num)).1
    0 (by norm_num) 7 (by norm_num)

end SpectraTray
